import Mathlib

/-!
Verification of the `clean()` text-normalization routine from
`C3_W2_Lab_1_cleaning_text.py` (lines 330-338) and `C3_W2_Lab_2_bioc_and_negbio.py`
(lines 126-134), and of the permutation-importance formula from
`C3_W3_Lab_1_permutation_method.py` (lines 157-179).

Strings are modelled as `List Char`.  The Python string/regex primitives used by
`clean` are modelled on the ASCII range (the range the notebooks exercise):

* `lowerChar` models `str.lower` per character (ASCII letters; other code
  points are left unchanged);
* `pyIsSpace` models the ASCII whitespace set of `str.split()` with no
  arguments (space, tab, newline, carriage return, vertical tab, form feed,
  and the four ASCII separator control characters);
* `isAlphaC` models the regex character class `[a-zA-Z]`;
* `subAndOr` models the re.sub call with the literal pattern and/or and the
  replacement or: leftmost, non-overlapping, continuing after each match;
* `slashOr` models the re.sub call whose pattern is a slash with a lookbehind
  and a lookahead for [a-zA-Z]: the lookaround assertions inspect the original
  neighbours of each slash and the match consumes only the slash itself;
* `dotdot` models the str.replace call taking two periods to one: leftmost,
  non-overlapping;
* `spacer` models str.translate with the punctuation-spacer table, which maps
  a period to period-space and a comma to comma-space;
* `words` and `joinSp` model the final split on whitespace followed by a join
  with a single space.
-/

/-- ASCII whitespace as recognised by Python `str.split()` with no arguments. -/
def pyIsSpace (c : Char) : Bool :=
  c = ' ' || c = '\t' || c = '\n' || c = '\r' || c = '\x0b' || c = '\x0c' ||
  c = '\x1c' || c = '\x1d' || c = '\x1e' || c = '\x1f'

/-- The regex character class [a-zA-Z] used by the lookbehind and lookahead. -/
def isAlphaC (c : Char) : Bool :=
  ('a' ≤ c && c ≤ 'z') || ('A' ≤ c && c ≤ 'Z')

/-- The lowercase ASCII letters. -/
def lowerList : List Char :=
  [ 'a', 'b', 'c', 'd', 'e', 'f', 'g', 'h', 'i', 'j', 'k', 'l', 'm',
    'n', 'o', 'p', 'q', 'r', 's', 't', 'u', 'v', 'w', 'x', 'y', 'z']

/-- The uppercase ASCII letters. -/
def upperList : List Char :=
  [ 'A', 'B', 'C', 'D', 'E', 'F', 'G', 'H', 'I', 'J', 'K', 'L', 'M',
    'N', 'O', 'P', 'Q', 'R', 'S', 'T', 'U', 'V', 'W', 'X', 'Y', 'Z']

/-- Python `str.lower` on one character, modelled on the ASCII letters (each
uppercase letter goes to its lowercase counterpart); any other code point is
left unchanged by this model. -/
def lowerChar (c : Char) : Char :=
  match (upperList.zip lowerList).find? (fun p => p.1 = c) with
  | some p => p.2
  | none => c

/-- The re.sub call with literal pattern and/or and replacement or: scan left
to right; on a match emit the replacement and continue after the match,
otherwise keep the character. -/
def subAndOr : List Char → List Char
  | c1 :: c2 :: c3 :: c4 :: c5 :: c6 :: rest =>
    if c1 = 'a' ∧ c2 = 'n' ∧ c3 = 'd' ∧ c4 = '/' ∧ c5 = 'o' ∧ c6 = 'r'
    then 'o' :: 'r' :: subAndOr rest
    else c1 :: subAndOr (c2 :: c3 :: c4 :: c5 :: c6 :: rest)
  | [] => []
  | c :: cs => c :: subAndOr cs

/-- Whether the next character exists and lies in [a-zA-Z] (the lookahead). -/
def headAlpha : List Char → Bool
  | c :: _ => isAlphaC c
  | [] => false

/-- Scanner for the re.sub call whose pattern is a slash with a lookbehind and
a lookahead for [a-zA-Z] and whose replacement is space-or-space.  `prev` is
the character of the original string just before the current position (the
lookbehind inspects the original string, and the match consumes only the
slash, so scanning resumes right after it). -/
def slashOrAux (prev : Char) : List Char → List Char
  | c :: cs =>
    if c = '/' ∧ isAlphaC prev = true ∧ headAlpha cs = true
    then ' ' :: 'o' :: 'r' :: ' ' :: slashOrAux c cs
    else c :: slashOrAux c cs
  | [] => []

/-- The slash-to-or substitution.  At the start of the string there is no
previous character; the space sentinel is not alphabetic, so a leading slash
is never replaced, exactly as the lookbehind fails there. -/
def slashOr (s : List Char) : List Char := slashOrAux ' ' s

/-- `s.replace("..", ".")`: leftmost, non-overlapping replacement. -/
def dotdot : List Char → List Char
  | c :: d :: rest => if c = '.' ∧ d = '.' then '.' :: dotdot rest else c :: dotdot (d :: rest)
  | [] => []
  | [c] => [c]

/-- `s.translate(punctuation_spacer)`: put a space after each period or comma. -/
def spacer : List Char → List Char
  | c :: cs => if c = '.' ∨ c = ',' then c :: ' ' :: spacer cs else c :: spacer cs
  | [] => []

/-- Helper for `words`: extend the word list `l` of the tail `cs` with the
non-whitespace character `c`: start a new word when the tail begins with
whitespace (or is exhausted), else prepend `c` to the first word. -/
def wordsCons (c : Char) : List Char → List (List Char) → List (List Char)
  | d :: _, w :: ws => if pyIsSpace d then [c] :: w :: ws else (c :: w) :: ws
  | _, _ => [[c]]

/-- Python `s.split()` with no arguments: the maximal runs of non-whitespace
characters, in order; whitespace runs (also leading and trailing ones) vanish. -/
def words : List Char → List (List Char)
  | [] => []
  | c :: cs => if pyIsSpace c then words cs else wordsCons c cs (words cs)

/-- The str.join of a word list: concatenate with a single space between
adjacent items. -/
def joinSp : List (List Char) → List Char
  | [] => []
  | [w] => w
  | w :: ws => w ++ ' ' :: joinSp ws

namespace CleaningText

/-- The `clean` function of `C3_W2_Lab_1_cleaning_text.py`, lines 330-338:
lowercase, replace `and/or` by `or`, replace a letter-flanked slash by
` or `, replace `..` by `.`, put a space after periods and commas, then
split on whitespace and re-join with single spaces. -/
def clean (sentence : List Char) : List Char :=
  joinSp (words (spacer (dotdot (slashOr (subAndOr (sentence.map lowerChar))))))

end CleaningText

namespace BiocNegbio

/-- The `clean` function re-defined in `C3_W2_Lab_2_bioc_and_negbio.py`,
lines 126-134; its Python source is textually identical to the one in
`C3_W2_Lab_1_cleaning_text.py`. -/
def clean (sentence : List Char) : List Char :=
  joinSp (words (spacer (dotdot (slashOr (subAndOr (sentence.map lowerChar))))))

end BiocNegbio

/-- The `clean` routine used by the claims below (the Lab 1 version). -/
def clean (sentence : List Char) : List Char := CleaningText.clean sentence

/-- The permutation feature importance of the permutation-method notebook
(`C3_W3_Lab_1_permutation_method.py`, lines 157-179): the absolute difference
between the baseline performance and the arithmetic mean of the performances
obtained on the shuffled datasets. -/
def importance (base : ℚ) (perfs : List ℚ) : ℚ :=
  |base - perfs.sum / (perfs.length : ℚ)|

-- Sanity checks of the model on the notebook sample sentences.

example :
    clean (String.toList "PA  and lateral views,with NO opacity and/or pleural effusion.") =
      String.toList "pa and lateral views, with no opacity or pleural effusion." := by decide

example :
    clean (String.toList "effusion/decreased lung volumes bilaterally.left RetroCardiac Atelectasis.") =
      String.toList "effusion or decreased lung volumes bilaterally. left retrocardiac atelectasis." := by
  decide

example :
    clean (String.toList "worrisome nodule in the Right Upper  lobe.CANNOT exclude neoplasm..") =
      String.toList "worrisome nodule in the right upper lobe. cannot exclude neoplasm." := by decide

-- ## Basic facts about the pipeline stages

theorem subAndOr_cons_short (c : Char) (cs : List Char) (hlen : cs.length ≤ 4) :
    subAndOr (c :: cs) = c :: subAndOr cs := by
  rcases cs with _ | ⟨c2, _ | ⟨c3, _ | ⟨c4, _ | ⟨c5, _ | ⟨c6, rest⟩⟩⟩⟩⟩ <;>
    first
      | rfl
      | simp at hlen

theorem subAndOr_noSlash (s : List Char) (h : '/' ∉ s) : subAndOr s = s := by
  induction s using subAndOr.induct with
  | case1 c1 c2 c3 c4 c5 c6 rest hm ih =>
    exact absurd (by simp [hm.2.2.2.1]) h
  | case2 c1 c2 c3 c4 c5 c6 rest hm ih =>
    rw [subAndOr, if_neg hm]
    simp only [List.cons.injEq, true_and]
    exact ih fun hc => h (by simp at hc ⊢; tauto)
  | case3 => rfl
  | case4 c cs hshape ih =>
    have hstep : subAndOr (c :: cs) = c :: subAndOr cs := by
      rcases cs with _ | ⟨c2, _ | ⟨c3, _ | ⟨c4, _ | ⟨c5, _ | ⟨c6, rest⟩⟩⟩⟩⟩
      · rfl
      · rfl
      · rfl
      · rfl
      · rfl
      · exact (hshape c2 c3 c4 c5 c6 rest rfl).elim
    rw [hstep]
    simp only [List.cons.injEq, true_and]
    exact ih fun hc => h (List.mem_cons_of_mem c hc)

theorem slashOrAux_noSlash (p : Char) (s : List Char) (h : '/' ∉ s) :
    slashOrAux p s = s := by
  induction s generalizing p with
  | nil => rfl
  | cons c cs ih =>
    have hc : ¬ c = '/' := fun he => h (by simp [he])
    rw [slashOrAux, if_neg (fun hand => hc hand.1)]
    exact congrArg (c :: ·) (ih c fun hm => h (List.mem_cons_of_mem c hm))

theorem dotdot_replicate (n : Nat) :
    dotdot (List.replicate n '.') = List.replicate ((n + 1) / 2) '.' := by
  induction n using Nat.strong_induction_on with
  | _ n ih =>
    match n with
    | 0 => rfl
    | 1 => rfl
    | (m + 2) =>
      have h := ih m (by omega)
      have h2 : (m + 2 + 1) / 2 = (m + 1) / 2 + 1 := by omega
      rw [show m + 2 = (m + 1) + 1 from rfl, List.replicate_succ, List.replicate_succ]
      rw [dotdot, if_pos ⟨rfl, rfl⟩, h, h2, List.replicate_succ]

theorem words_space_cons (c : Char) (h : pyIsSpace c = true) (s : List Char) :
    words (c :: s) = words s := by
  rw [words, if_pos h]

theorem wordsCons_space (c d : Char) (hd : pyIsSpace d = true) (cs : List Char)
    (l : List (List Char)) :
    wordsCons c (d :: cs) l = [c] :: l := by
  cases l with
  | nil => rfl
  | cons w ws => rw [wordsCons, if_pos hd]

theorem wordsCons_nil (c : Char) (l : List (List Char)) : wordsCons c [] l = [[c]] := by
  cases l <;> rfl

theorem words_cons_nonspace (c : Char) (h : pyIsSpace c = false) (cs : List Char) :
    words (c :: cs) =
      (c :: cs.takeWhile (fun d => !pyIsSpace d)) ::
        words (cs.dropWhile (fun d => !pyIsSpace d)) := by
  induction cs generalizing c with
  | nil =>
    rw [words, if_neg (by simp [h])]
    exact wordsCons_nil c []
  | cons d cs' ih =>
    by_cases hd : pyIsSpace d = true
    · rw [words, if_neg (by simp [h])]
      rw [words_space_cons d hd, wordsCons_space c d hd]
      rw [List.takeWhile_cons, List.dropWhile_cons]
      simp only [hd, Bool.not_true, Bool.false_eq_true, if_false]
      rw [words_space_cons d hd]
    · have hd' : pyIsSpace d = false := by simpa using hd
      rw [words, if_neg (by simp [h])]
      rw [ih d hd']
      rw [wordsCons, if_neg (by simp [hd'])]
      rw [List.takeWhile_cons, List.dropWhile_cons]
      simp only [hd', Bool.not_false, if_true]

theorem words_spacer_replicate (m : Nat) :
    words (spacer (List.replicate m '.')) = List.replicate m ['.'] := by
  induction m with
  | zero => rfl
  | succ k ih =>
    rw [List.replicate_succ, spacer, if_pos (Or.inl rfl)]
    rw [words, if_neg (by decide), wordsCons_space '.' ' ' (by decide)]
    rw [words_space_cons ' ' (by decide), ih, List.replicate_succ]

theorem joinSp_count_replicate (m : Nat) :
    (joinSp (List.replicate m ['.'])).count '.' = m := by
  induction m with
  | zero => rfl
  | succ k ih =>
    cases k with
    | zero => rfl
    | succ j =>
      rw [List.replicate_succ, joinSp.eq_3, List.count_append]
      · simp [List.count_cons, ih]
        omega
      · simp

-- ## Claims C1, C2, C7 and C8

/-- Claim C1: the permutation feature importance equals the absolute
difference between the baseline concordance-index and the arithmetic mean of
the concordance-indices of the shuffled datasets; for the notebook values
0.8182 and 0.6749, 0.6554, 0.6428, the mean is exactly 0.6577 and the
importance is exactly 0.1605 in rational arithmetic. -/
theorem importance_notebook_value :
    importance (8182 / 10000) [6749 / 10000, 6554 / 10000, 6428 / 10000] = 1605 / 10000 ∧
    ((6749 / 10000 : ℚ) + (6554 / 10000) + (6428 / 10000)) / 3 = 6577 / 10000 := by
  constructor
  · unfold importance
    simp only [List.sum_cons, List.sum_nil, List.length_cons, List.length_nil]
    rw [abs_of_nonneg (by norm_num)]
    norm_num
  · norm_num

/-- Claim C2 (counterexample): the input of four consecutive periods does not
come out as a single period; clean maps it to period-space-period, whose
period count is 2, not 1. -/
theorem clean_four_periods :
    clean (String.toList "....") = String.toList ". ." ∧
    (clean (String.toList "....")).count '.' = 2 ∧ (2 : Nat) ≠ 1 :=
  ⟨by decide, by decide, by decide⟩

/-- Claim C2 (amended): the period-collapsing step replaces disjoint pairs of
periods left to right in a single pass, so a maximal run of n periods
contributes ceil(n/2) periods to the output (each separated by the inserted
spaces), not one. -/
theorem clean_period_run (n : Nat) :
    clean (List.replicate n '.') = joinSp (List.replicate ((n + 1) / 2) ['.']) ∧
    (clean (List.replicate n '.')).count '.' = (n + 1) / 2 := by
  have hmap : (List.replicate n '.').map lowerChar = List.replicate n '.' := by
    rw [List.map_replicate, show lowerChar '.' = '.' from by decide]
  have hmem : '/' ∉ List.replicate n '.' := fun hm =>
    absurd (List.eq_of_mem_replicate hm) (by decide)
  have hclean : clean (List.replicate n '.') = joinSp (List.replicate ((n + 1) / 2) ['.']) := by
    show joinSp (words (spacer (dotdot (slashOr (subAndOr ((List.replicate n '.').map lowerChar)))))) = _
    rw [hmap, subAndOr_noSlash _ hmem, slashOr, slashOrAux_noSlash _ _ hmem,
      dotdot_replicate, words_spacer_replicate]
  exact ⟨hclean, by rw [hclean, joinSp_count_replicate]⟩

/-- Claim C7: the clean function of the text-cleaning notebook and the clean
function re-defined in the BioC/NegBio notebook are the same routine: they
return identical outputs on every input. -/
theorem clean_defs_agree (s : List Char) : CleaningText.clean s = BiocNegbio.clean s := rfl

/-- Claim C8: clean is total; it returns a string on every input, including
the empty string, whitespace-only strings and punctuation-only strings. -/
theorem clean_total :
    (∀ s : List Char, ∃ t : List Char, clean s = t) ∧
    clean [] = [] ∧
    clean [ ' ', '\t', '\n', ' '] = [] ∧
    clean [ '.', ','] = [ '.', ' ', ','] :=
  ⟨fun s => ⟨clean s, rfl⟩, by decide, by decide, by decide⟩

-- ## Character-class facts

theorem lowerChar_mem (z : Char) : lowerChar z ∈ z :: lowerList := by
  unfold lowerChar
  cases hf : List.find? (fun p => p.1 = z) (upperList.zip lowerList) with
  | none => exact List.mem_cons_self _ _
  | some p =>
    have hp := List.mem_of_find?_eq_some hf
    have hall : ∀ q ∈ upperList.zip lowerList, q.2 ∈ lowerList := by decide
    exact List.mem_cons_of_mem z (hall p hp)

theorem lowerChar_idem (z : Char) : lowerChar (lowerChar z) = lowerChar z := by
  have hlow : ∀ w ∈ lowerList, lowerChar w = w := by decide
  rcases List.mem_cons.mp (lowerChar_mem z) with h | h
  · rw [h]
    exact h
  · exact hlow _ h

theorem lowerChar_eq_slash (z : Char) (h : lowerChar z = '/') : z = '/' := by
  rcases List.mem_cons.mp (lowerChar_mem z) with h2 | h2
  · rw [← h2, h]
  · rw [h] at h2
    exact absurd h2 (by decide)

/-- The ten ASCII whitespace characters recognised by `pyIsSpace`. -/
def spaceList : List Char :=
  [ ' ', '\t', '\n', '\r', '\x0b', '\x0c', '\x1c', '\x1d', '\x1e', '\x1f']

theorem space_mem (c : Char) (h : pyIsSpace c = true) : c ∈ spaceList := by
  simp only [pyIsSpace, Bool.or_eq_true, decide_eq_true_eq] at h
  simp only [spaceList, List.mem_cons, List.not_mem_nil, or_false]
  tauto

theorem space_char_facts (c : Char) (h : pyIsSpace c = true) :
    lowerChar c = c ∧ c ≠ '/' ∧ c ≠ '.' ∧ c ≠ ',' ∧ isAlphaC c = false := by
  have hm := space_mem c h
  fin_cases hm <;> exact ⟨by decide, by decide, by decide, by decide, by decide⟩

theorem alpha_char_facts (c : Char) (h : isAlphaC c = true) :
    c ≠ '/' ∧ c ≠ '.' ∧ c ≠ ',' ∧ pyIsSpace c = false := by
  refine ⟨fun he => absurd h (by rw [he]; decide),
          fun he => absurd h (by rw [he]; decide),
          fun he => absurd h (by rw [he]; decide), ?_⟩
  by_contra hs
  have hs' : pyIsSpace c = true := by simpa using hs
  exact absurd h (by simp [(space_char_facts c hs').2.2.2.2])

-- ## No-op lemmas for the remaining stages

theorem dotdot_noDot (s : List Char) (h : '.' ∉ s) : dotdot s = s := by
  induction s using dotdot.induct with
  | case1 a b rest hab ih => exact absurd (by simp [hab.1]) h
  | case2 a b rest hab ih =>
    rw [dotdot, if_neg hab]
    exact congrArg (a :: ·) (ih fun hm => h (List.mem_cons_of_mem a hm))
  | case3 => rfl
  | case4 c => rfl

theorem spacer_noPunct (s : List Char) (hd : '.' ∉ s) (hc : ',' ∉ s) : spacer s = s := by
  induction s with
  | nil => rfl
  | cons c cs ih =>
    have h1 : ¬ c = '.' := fun he => hd (by simp [he])
    have h2 : ¬ c = ',' := fun he => hc (by simp [he])
    rw [spacer, if_neg (fun hor => hor.elim h1 h2)]
    exact congrArg (c :: ·)
      (ih (fun hm => hd (List.mem_cons_of_mem c hm)) (fun hm => hc (List.mem_cons_of_mem c hm)))

/-- When the input contains no character changed by lowercasing, no slash, no
period and no comma, only the final whitespace normalization of clean acts. -/
theorem clean_eq_join_words (s : List Char)
    (hlower : ∀ x ∈ s, lowerChar x = x)
    (hslash : '/' ∉ s) (hdot : '.' ∉ s) (hcomma : ',' ∉ s) :
    clean s = joinSp (words s) := by
  show joinSp (words (spacer (dotdot (slashOr (subAndOr (s.map lowerChar)))))) = _
  have hmap : s.map lowerChar = s := by
    calc s.map lowerChar = s.map id := List.map_congr_left hlower
    _ = s := List.map_id s
  rw [hmap, subAndOr_noSlash _ hslash, slashOr, slashOrAux_noSlash _ _ hslash,
    dotdot_noDot _ hdot, spacer_noPunct _ hdot hcomma]

theorem words_replicate_space_append (c : Char) (hc : pyIsSpace c = true)
    (n : Nat) (s : List Char) :
    words (List.replicate n c ++ s) = words s := by
  induction n with
  | zero => rfl
  | succ k ih => rw [List.replicate_succ, List.cons_append, words_space_cons c hc, ih]

theorem mem_replicate_append (x c b : Char) (n : Nat)
    (hx : x ∈ List.replicate n c ++ [b]) : x = c ∨ x = b := by
  rcases List.mem_append.mp hx with h | h
  · exact Or.inl (List.eq_of_mem_replicate h)
  · exact Or.inr (List.mem_singleton.mp h)

theorem mem_cons_replicate (x a c : Char) (n : Nat)
    (hx : x ∈ a :: List.replicate n c) : x = a ∨ x = c := by
  rcases List.mem_cons.mp hx with h | h
  · exact Or.inl h
  · exact Or.inr (List.eq_of_mem_replicate h)

-- ## Claim C3

/-- Claim C3 (counterexample): a maximal whitespace run at the start of the
input is removed entirely rather than collapsed to one space: cleaning
space-space-a gives the one-character string a, with zero spaces. -/
theorem clean_leading_spaces :
    clean (String.toList "  a") = String.toList "a" ∧
    (clean (String.toList "  a")).count ' ' = 0 ∧ (0 : Nat) ≠ 1 :=
  ⟨by decide, by decide, by decide⟩

/-- Claim C3 (amended): a maximal run of whitespace characters strictly inside
the string collapses to exactly one space character, while a maximal run at
the start or at the end of the string is removed and contributes no space. -/
theorem clean_ws_runs (c : Char) (n : Nat) (hc : pyIsSpace c = true) (hn : 1 ≤ n) :
    clean ( 'a' :: (List.replicate n c ++ [ 'b'])) = String.toList "a b" ∧
    clean (List.replicate n c ++ [ 'a']) = [ 'a'] ∧
    clean ( 'a' :: List.replicate n c) = [ 'a'] := by
  obtain ⟨hlc, hs1, hs2, hs3, _⟩ := space_char_facts c hc
  obtain ⟨m, rfl⟩ : ∃ m, n = m + 1 := ⟨n - 1, by omega⟩
  refine ⟨?_, ?_, ?_⟩
  · rw [clean_eq_join_words]
    · rw [words_cons_nonspace 'a' (by decide)]
      rw [List.replicate_succ, List.cons_append, List.takeWhile_cons, List.dropWhile_cons]
      simp only [hc, Bool.not_true, Bool.false_eq_true, if_false]
      rw [words_space_cons c hc, words_replicate_space_append c hc]
      decide
    · intro x hx
      rcases List.mem_cons.mp hx with rfl | hx
      · decide
      · rcases mem_replicate_append x c 'b' (m + 1) hx with rfl | rfl
        · exact hlc
        · decide
    · intro hx
      rcases List.mem_cons.mp hx with hx | hx
      · exact absurd hx (by decide)
      · rcases mem_replicate_append _ c 'b' (m + 1) hx with hx | hx
        · exact hs1 hx.symm
        · exact absurd hx (by decide)
    · intro hx
      rcases List.mem_cons.mp hx with hx | hx
      · exact absurd hx (by decide)
      · rcases mem_replicate_append _ c 'b' (m + 1) hx with hx | hx
        · exact hs2 hx.symm
        · exact absurd hx (by decide)
    · intro hx
      rcases List.mem_cons.mp hx with hx | hx
      · exact absurd hx (by decide)
      · rcases mem_replicate_append _ c 'b' (m + 1) hx with hx | hx
        · exact hs3 hx.symm
        · exact absurd hx (by decide)
  · rw [clean_eq_join_words]
    · rw [words_replicate_space_append c hc]
      decide
    · intro x hx
      rcases mem_replicate_append x c 'a' (m + 1) hx with rfl | rfl
      · exact hlc
      · decide
    · intro hx
      rcases mem_replicate_append _ c 'a' (m + 1) hx with hx | hx
      · exact hs1 hx.symm
      · exact absurd hx (by decide)
    · intro hx
      rcases mem_replicate_append _ c 'a' (m + 1) hx with hx | hx
      · exact hs2 hx.symm
      · exact absurd hx (by decide)
    · intro hx
      rcases mem_replicate_append _ c 'a' (m + 1) hx with hx | hx
      · exact hs3 hx.symm
      · exact absurd hx (by decide)
  · rw [clean_eq_join_words]
    · rw [words_cons_nonspace 'a' (by decide)]
      rw [List.replicate_succ, List.takeWhile_cons, List.dropWhile_cons]
      simp only [hc, Bool.not_true, Bool.false_eq_true, if_false]
      rw [words_space_cons c hc, ← List.append_nil (List.replicate m c),
        words_replicate_space_append c hc]
      decide
    · intro x hx
      rcases mem_cons_replicate x 'a' c (m + 1) hx with rfl | rfl
      · decide
      · exact hlc
    · intro hx
      rcases mem_cons_replicate _ 'a' c (m + 1) hx with hx | hx
      · exact absurd hx (by decide)
      · exact hs1 hx.symm
    · intro hx
      rcases mem_cons_replicate _ 'a' c (m + 1) hx with hx | hx
      · exact absurd hx (by decide)
      · exact hs2 hx.symm
    · intro hx
      rcases mem_cons_replicate _ 'a' c (m + 1) hx with hx | hx
      · exact absurd hx (by decide)
      · exact hs3 hx.symm

/-- Witness for the amended claim C3 at a concrete run of two spaces. -/
theorem clean_ws_runs_witness :
    clean ( 'a' :: (List.replicate 2 ' ' ++ [ 'b'])) = String.toList "a b" :=
  (clean_ws_runs ' ' 2 (by decide) (by decide)).1

-- ## Claim C5

/-- Claim C5 (counterexample): in the input and/or the slash stands between
the alphabetic characters d and o, yet clean does not replace it by
space-or-space keeping the adjacent letters (which would give and-or-or): the
earlier and/or rule consumes the whole occurrence first. -/
theorem clean_andor_first :
    clean (String.toList "and/or") = String.toList "or" ∧
    String.toList "or" ≠ String.toList "and or or" :=
  ⟨by decide, by decide⟩

/-- Claim C5 (amended): a slash between two alphabetic characters that is not
part of an and/or occurrence is replaced by space-or-space with the adjacent
letters kept, and a slash not flanked by alphabetic characters on both sides
is left unchanged by the slash rule. -/
theorem clean_slash_rule (x y : Char) :
    (isAlphaC x = true → isAlphaC y = true → lowerChar x = x → lowerChar y = y →
      clean [x, '/', y] = [x, ' ', 'o', 'r', ' ', y]) ∧
    (¬(isAlphaC x = true ∧ isAlphaC y = true) → slashOr [x, '/', y] = [x, '/', y]) := by
  constructor
  · intro hx hy hlx hly
    obtain ⟨hx1, hx2, hx3, hx4⟩ := alpha_char_facts x hx
    obtain ⟨hy1, hy2, hy3, hy4⟩ := alpha_char_facts y hy
    show joinSp (words (spacer (dotdot (slashOr (subAndOr ([x, '/', y].map lowerChar)))))) = _
    have hmap : [x, '/', y].map lowerChar = [x, '/', y] := by
      rw [List.map_cons, List.map_cons, List.map_cons, List.map_nil, hlx, hly,
        show lowerChar '/' = '/' from by decide]
    rw [hmap]
    rw [subAndOr_cons_short x _ (by simp), subAndOr_cons_short '/' _ (by simp),
      subAndOr_cons_short y _ (by simp), show subAndOr [] = [] from rfl]
    rw [slashOr, slashOrAux, if_neg (fun hcon => absurd hcon.2.1 (by decide))]
    rw [slashOrAux, if_pos ⟨rfl, hx, hy⟩]
    rw [slashOrAux, if_neg (fun hcon => absurd hcon.2.1 (by decide))]
    rw [show slashOrAux y [] = [] from rfl]
    have hnd : '.' ∉ [x, ' ', 'o', 'r', ' ', y] := by
      intro hm
      simp only [List.mem_cons, List.not_mem_nil, or_false] at hm
      rcases hm with h | h | h | h | h | h
      · exact hx2 h.symm
      · exact absurd h (by decide)
      · exact absurd h (by decide)
      · exact absurd h (by decide)
      · exact absurd h (by decide)
      · exact hy2 h.symm
    have hnc : ',' ∉ [x, ' ', 'o', 'r', ' ', y] := by
      intro hm
      simp only [List.mem_cons, List.not_mem_nil, or_false] at hm
      rcases hm with h | h | h | h | h | h
      · exact hx3 h.symm
      · exact absurd h (by decide)
      · exact absurd h (by decide)
      · exact absurd h (by decide)
      · exact absurd h (by decide)
      · exact hy3 h.symm
    rw [dotdot_noDot _ hnd, spacer_noPunct _ hnd hnc]
    rw [words_cons_nonspace x hx4]
    rw [List.takeWhile_cons, List.dropWhile_cons]
    simp only [show (!pyIsSpace ' ') = false from by decide, Bool.false_eq_true, if_false]
    rw [words_space_cons ' ' (by decide)]
    rw [words_cons_nonspace 'o' (by decide)]
    rw [List.takeWhile_cons, List.dropWhile_cons]
    simp only [show (!pyIsSpace 'r') = true from by decide, if_true]
    rw [List.takeWhile_cons, List.dropWhile_cons]
    simp only [show (!pyIsSpace ' ') = false from by decide, Bool.false_eq_true, if_false,
      List.takeWhile_nil]
    rw [words_space_cons ' ' (by decide)]
    rw [words_cons_nonspace y hy4]
    simp only [List.takeWhile_nil, List.dropWhile_nil]
    rw [show words [] = [] from rfl]
    rfl
  · intro hnot
    rw [slashOr, slashOrAux, if_neg (fun hcon => absurd hcon.2.1 (by decide))]
    rw [slashOrAux, if_neg (fun hcon => hnot ⟨hcon.2.1, hcon.2.2⟩)]
    rw [slashOrAux, if_neg (fun hcon => absurd hcon.2.1 (by decide))]
    rfl

/-- Witness for the amended claim C5 at concrete characters. -/
theorem clean_slash_rule_witness :
    clean [ 'b', '/', 'c'] = [ 'b', ' ', 'o', 'r', ' ', 'c'] ∧
    slashOr [ '1', '/', 'c'] = [ '1', '/', 'c'] :=
  ⟨(clean_slash_rule 'b' 'c').1 (by decide) (by decide) (by decide) (by decide),
   (clean_slash_rule '1' 'c').2 (by decide)⟩

-- ## Claim C6

theorem subAndOr_cons_no4 (c : Char) (cs : List Char)
    (h : cs.get? 2 ≠ some '/') :
    subAndOr (c :: cs) = c :: subAndOr cs := by
  rcases cs with _ | ⟨c2, _ | ⟨c3, _ | ⟨c4, rest⟩⟩⟩
  · rfl
  · rfl
  · rfl
  · rcases rest with _ | ⟨c5, _ | ⟨c6, rest'⟩⟩
    · rfl
    · rfl
    · rw [subAndOr, if_neg]
      intro hm
      exact h (by rw [hm.2.2.2.1]; rfl)

/-- A single and/or occurrence in a slash-free context is replaced by or and
the scan passes over everything else unchanged. -/
theorem subAndOr_around (u : List Char) (hu : '/' ∉ u) (v : List Char) (hv : '/' ∉ v) :
    subAndOr (u ++ 'a' :: 'n' :: 'd' :: '/' :: 'o' :: 'r' :: v) = u ++ 'o' :: 'r' :: v := by
  induction u with
  | nil =>
    rw [List.nil_append, List.nil_append]
    rw [subAndOr, if_pos ⟨rfl, rfl, rfl, rfl, rfl, rfl⟩]
    rw [subAndOr_noSlash v hv]
  | cons c u' ih =>
    have hu' : '/' ∉ u' := fun hm => hu (List.mem_cons_of_mem c hm)
    rw [List.cons_append, List.cons_append, subAndOr_cons_no4, ih hu']
    rcases u' with _ | ⟨x1, _ | ⟨x2, _ | ⟨x3, r⟩⟩⟩
    · simp
    · simp
    · simp
    · simp only [List.cons_append, List.get?_cons_succ, List.get?_cons_zero, ne_eq,
        Option.some.injEq]
      intro he
      exact hu' (by simp [he])

/-- Claim C6: clean replaces an occurrence of and/or (after lowercasing) by
the single word or, and this substitution runs before the general slash rule:
in a slash-free context the result is the same as if the occurrence had
already been the word or, and the input and/or itself comes out as or, not as
and-or-or. -/
theorem clean_and_or_rule (u v : List Char) (hu : '/' ∉ u) (hv : '/' ∉ v) :
    clean (u ++ ( 'a' :: 'n' :: 'd' :: '/' :: 'o' :: 'r' :: v)) =
      clean (u ++ ( 'o' :: 'r' :: v)) ∧
    clean (String.toList "and/or") = String.toList "or" := by
  refine ⟨?_, by decide⟩
  have hmu : '/' ∉ u.map lowerChar := by
    intro hm
    rcases List.mem_map.mp hm with ⟨a, ha, hae⟩
    exact hu (lowerChar_eq_slash a hae ▸ ha)
  have hmv : '/' ∉ v.map lowerChar := by
    intro hm
    rcases List.mem_map.mp hm with ⟨a, ha, hae⟩
    exact hv (lowerChar_eq_slash a hae ▸ ha)
  have hL : subAndOr ((u ++ ( 'a' :: 'n' :: 'd' :: '/' :: 'o' :: 'r' :: v)).map lowerChar) =
      u.map lowerChar ++ 'o' :: 'r' :: v.map lowerChar := by
    rw [List.map_append]
    simp only [List.map_cons]
    rw [show lowerChar 'a' = 'a' from by decide, show lowerChar 'n' = 'n' from by decide,
      show lowerChar 'd' = 'd' from by decide, show lowerChar '/' = '/' from by decide,
      show lowerChar 'o' = 'o' from by decide, show lowerChar 'r' = 'r' from by decide]
    exact subAndOr_around _ hmu _ hmv
  have hR : subAndOr ((u ++ ( 'o' :: 'r' :: v)).map lowerChar) =
      u.map lowerChar ++ 'o' :: 'r' :: v.map lowerChar := by
    rw [List.map_append]
    simp only [List.map_cons]
    rw [show lowerChar 'o' = 'o' from by decide, show lowerChar 'r' = 'r' from by decide]
    apply subAndOr_noSlash
    intro hm
    rcases List.mem_append.mp hm with hm | hm
    · exact hmu hm
    · rcases List.mem_cons.mp hm with hm | hm
      · exact absurd hm (by decide)
      · rcases List.mem_cons.mp hm with hm | hm
        · exact absurd hm (by decide)
        · exact hmv hm
  show joinSp (words (spacer (dotdot (slashOr (subAndOr _))))) =
    joinSp (words (spacer (dotdot (slashOr (subAndOr _)))))
  rw [hL, hR]

/-- Witness for claim C6 at a concrete slash-free context. -/
theorem clean_and_or_rule_witness :
    clean (String.toList "x " ++ ( 'a' :: 'n' :: 'd' :: '/' :: 'o' :: 'r' :: String.toList " y")) =
      clean (String.toList "x " ++ ( 'o' :: 'r' :: String.toList " y")) :=
  (clean_and_or_rule (String.toList "x ") (String.toList " y") (by decide) (by decide)).1

-- ## Output invariants: definitions

/-- The two punctuation characters the spacer acts on. -/
def isPunct (c : Char) : Bool := c = '.' || c = ','

/-- Every period or comma is immediately followed by a space, except possibly
a final one. -/
def punctSpaced : List Char → Bool
  | c :: d :: rest => (!isPunct c || d = ' ') && punctSpaced (d :: rest)
  | _ => true

/-- Every period or comma is immediately followed by a space, the last
character included. -/
def strictSpaced : List Char → Bool
  | c :: d :: rest => (!isPunct c || d = ' ') && strictSpaced (d :: rest)
  | [c] => !isPunct c
  | [] => true

/-- Periods and commas occur at most as the final character. -/
def punctOnlyLast : List Char → Bool
  | c :: d :: rest => !isPunct c && punctOnlyLast (d :: rest)
  | _ => true

/-- No two adjacent whitespace characters. -/
def noTwoWs : List Char → Bool
  | c :: d :: rest => !(pyIsSpace c && pyIsSpace d) && noTwoWs (d :: rest)
  | _ => true

/-- The only whitespace character that occurs is the plain space. -/
def spaceOnlyWs (s : List Char) : Bool := s.all (fun c => !pyIsSpace c || c = ' ')

/-- The first character, when present, is not whitespace. -/
def headNoWs : List Char → Bool
  | c :: _ => !pyIsSpace c
  | [] => true

/-- The last character, when present, is not whitespace. -/
def lastNoWs : List Char → Bool
  | [] => true
  | [c] => !pyIsSpace c
  | _ :: d :: rest => lastNoWs (d :: rest)

/-- Whitespace normal form: only plain spaces, never two adjacent, none at
either end. -/
def wsNormal (s : List Char) : Bool :=
  spaceOnlyWs s && noTwoWs s && headNoWs s && lastNoWs s

/-- No slash has alphabetic characters on both of its sides. -/
def noFlanked : List Char → Bool
  | a :: b :: c :: rest => (!(b = '/' && isAlphaC a && isAlphaC c)) && noFlanked (b :: c :: rest)
  | _ => true

-- ## Output invariants: small structural lemmas

theorem punctSpaced_tail (c : Char) (s : List Char) (h : punctSpaced (c :: s) = true) :
    punctSpaced s = true := by
  cases s with
  | nil => rfl
  | cons d rest => exact (Bool.and_eq_true_iff.mp h).2

theorem punctSpaced_cons_nonpunct (c : Char) (hc : isPunct c = false) (s : List Char)
    (h : punctSpaced s = true) : punctSpaced (c :: s) = true := by
  cases s with
  | nil => rfl
  | cons d rest =>
    rw [punctSpaced, Bool.and_eq_true_iff]
    exact ⟨by simp [hc], h⟩

theorem strictSpaced_tail (c : Char) (s : List Char) (h : strictSpaced (c :: s) = true) :
    strictSpaced s = true := by
  cases s with
  | nil => rfl
  | cons d rest => exact (Bool.and_eq_true_iff.mp h).2

theorem strictSpaced_cons_nonpunct (c : Char) (hc : isPunct c = false) (s : List Char)
    (h : strictSpaced s = true) : strictSpaced (c :: s) = true := by
  cases s with
  | nil => simp [strictSpaced, hc]
  | cons d rest =>
    rw [strictSpaced, Bool.and_eq_true_iff]
    exact ⟨by simp [hc], h⟩

theorem noTwoWs_tail (c : Char) (s : List Char) (h : noTwoWs (c :: s) = true) :
    noTwoWs s = true := by
  cases s with
  | nil => rfl
  | cons d rest => exact (Bool.and_eq_true_iff.mp h).2

theorem noFlanked_tail (a : Char) (s : List Char) (h : noFlanked (a :: s) = true) :
    noFlanked s = true := by
  cases s with
  | nil => rfl
  | cons b rest =>
    cases rest with
    | nil => rfl
    | cons c rest' => exact (Bool.and_eq_true_iff.mp h).2

theorem noFlanked_cons_nonalpha (p : Char) (hp : isAlphaC p = false) (s : List Char)
    (h : noFlanked s = true) : noFlanked (p :: s) = true := by
  cases s with
  | nil => rfl
  | cons b rest =>
    cases rest with
    | nil => rfl
    | cons c rest' =>
      rw [noFlanked, Bool.and_eq_true_iff]
      exact ⟨by simp [hp], h⟩

/-- The first check of `noFlanked` only uses whether the head is alphabetic. -/
theorem noFlanked_cons_congr (p q : Char) (hpq : isAlphaC p = isAlphaC q) (s : List Char) :
    noFlanked (p :: s) = noFlanked (q :: s) := by
  cases s with
  | nil => rfl
  | cons b rest =>
    cases rest with
    | nil => rfl
    | cons c rest' =>
      rw [noFlanked, noFlanked, hpq]

-- ## The spacer output satisfies strictSpaced

theorem strictSpaced_spacer (s : List Char) : strictSpaced (spacer s) = true := by
  induction s with
  | nil => rfl
  | cons c cs ih =>
    rw [spacer]
    split
    · rename_i hp
      have hsp : isPunct ' ' = false := by decide
      rcases hp with hp | hp <;> subst hp
      · rw [show strictSpaced ( '.' :: ' ' :: spacer cs) =
            ((!isPunct '.' || ' ' = ' ') && strictSpaced ( ' ' :: spacer cs)) from rfl]
        simp only [Bool.or_eq_true, decide_eq_true_eq, Bool.and_eq_true_iff]
        exact ⟨Or.inr trivial, strictSpaced_cons_nonpunct ' ' hsp _ ih⟩
      · rw [show strictSpaced ( ',' :: ' ' :: spacer cs) =
            ((!isPunct ',' || ' ' = ' ') && strictSpaced ( ' ' :: spacer cs)) from rfl]
        simp only [Bool.or_eq_true, decide_eq_true_eq, Bool.and_eq_true_iff]
        exact ⟨Or.inr trivial, strictSpaced_cons_nonpunct ' ' hsp _ ih⟩
    · rename_i hp
      push_neg at hp
      have hc : isPunct c = false := by
        simp only [isPunct, Bool.or_eq_false_iff, decide_eq_false_iff_not]
        exact hp
      exact strictSpaced_cons_nonpunct c hc _ ih

-- ## Words of a strictly spaced string

theorem strictSpaced_dropWhile (s : List Char) (h : strictSpaced s = true) :
    strictSpaced (s.dropWhile (fun d => !pyIsSpace d)) = true := by
  induction s with
  | nil => exact h
  | cons c cs ih =>
    rw [List.dropWhile_cons]
    by_cases hc : (!pyIsSpace c) = true
    · rw [if_pos hc]
      exact ih (strictSpaced_tail _ _ h)
    · rw [if_neg hc]
      exact h

theorem punctOnlyLast_takeWhile (s : List Char) (hss : strictSpaced s = true) :
    punctOnlyLast (s.takeWhile (fun d => !pyIsSpace d)) = true := by
  induction s with
  | nil => rfl
  | cons c cs ih =>
    rw [List.takeWhile_cons]
    by_cases hc : pyIsSpace c = true
    · simp only [hc, Bool.not_true, Bool.false_eq_true, if_false]
      rfl
    · have hc' : pyIsSpace c = false := by simpa using hc
      simp only [hc', Bool.not_false, if_true]
      cases htw : cs.takeWhile (fun d => !pyIsSpace d) with
      | nil => rfl
      | cons d t =>
        have hcs : ∃ cs', cs = d :: cs' ∧ (!pyIsSpace d) = true := by
          cases cs with
          | nil => simp at htw
          | cons e cs' =>
            rw [List.takeWhile_cons] at htw
            by_cases he : (!pyIsSpace e) = true
            · rw [if_pos he] at htw
              obtain ⟨rfl, -⟩ := List.cons.inj htw
              exact ⟨cs', rfl, he⟩
            · rw [if_neg he] at htw
              exact absurd htw (by simp)
        obtain ⟨cs', rfl, hd⟩ := hcs
        have h1 := (Bool.and_eq_true_iff.mp hss).1
        have hdne : d ≠ ' ' := by
          intro he
          subst he
          exact absurd hd (by decide)
        have hcp : isPunct c = false := by
          rcases Bool.or_eq_true_iff.mp h1 with h | h
          · simpa using h
          · exact absurd (by simpa using h) hdne
        rw [punctOnlyLast, Bool.and_eq_true_iff]
        refine ⟨by simp [hcp], ?_⟩
        rw [← htw]
        exact ih (strictSpaced_tail _ _ hss)

theorem words_sound_aux : ∀ (n : Nat) (e : List Char), e.length ≤ n →
    ∀ w ∈ words e, w ≠ [] ∧ (∀ x ∈ w, pyIsSpace x = false) ∧ (∀ x ∈ w, x ∈ e) := by
  intro n
  induction n with
  | zero =>
    intro e hlen w hw
    have he : e = [] := List.eq_nil_of_length_eq_zero (by omega)
    subst he
    simp [words] at hw
  | succ k ih =>
    intro e hlen w hw
    match e with
    | [] => simp [words] at hw
    | c :: cs =>
      by_cases hc : pyIsSpace c = true
      · rw [words_space_cons c hc] at hw
        obtain ⟨h1, h2, h3⟩ := ih cs (by simp at hlen; omega) w hw
        exact ⟨h1, h2, fun x hx => List.mem_cons_of_mem c (h3 x hx)⟩
      · have hc' : pyIsSpace c = false := by simpa using hc
        rw [words_cons_nonspace c hc'] at hw
        rcases List.mem_cons.mp hw with rfl | hw
        · refine ⟨by simp, ?_, ?_⟩
          · intro x hx
            rcases List.mem_cons.mp hx with rfl | hx
            · exact hc'
            · have := List.mem_takeWhile_imp hx
              simpa using this
          · intro x hx
            rcases List.mem_cons.mp hx with rfl | hx
            · exact List.mem_cons_self _ _
            · exact List.mem_cons_of_mem c ((List.takeWhile_sublist _).subset hx)
        · obtain ⟨h1, h2, h3⟩ := ih (cs.dropWhile (fun d => !pyIsSpace d))
            (by
              have hd := (@List.dropWhile_sublist Char cs (fun d => !pyIsSpace d)).length_le
              simp at hlen
              omega) w hw
          exact ⟨h1, h2, fun x hx =>
            List.mem_cons_of_mem c ((List.dropWhile_sublist _).subset (h3 x hx))⟩

theorem words_ne_nil (e : List Char) (w : List Char) (hw : w ∈ words e) : w ≠ [] :=
  (words_sound_aux e.length e le_rfl w hw).1

theorem words_nonspace (e : List Char) (w : List Char) (hw : w ∈ words e) :
    ∀ x ∈ w, pyIsSpace x = false :=
  (words_sound_aux e.length e le_rfl w hw).2.1

theorem words_chars (e : List Char) (w : List Char) (hw : w ∈ words e) :
    ∀ x ∈ w, x ∈ e :=
  (words_sound_aux e.length e le_rfl w hw).2.2

theorem words_punctOnlyLast_aux : ∀ (n : Nat) (e : List Char), e.length ≤ n →
    strictSpaced e = true → ∀ w ∈ words e, punctOnlyLast w = true := by
  intro n
  induction n with
  | zero =>
    intro e hlen _ w hw
    have he : e = [] := List.eq_nil_of_length_eq_zero (by omega)
    subst he
    simp [words] at hw
  | succ k ih =>
    intro e hlen hss w hw
    match e with
    | [] => simp [words] at hw
    | c :: cs =>
      by_cases hc : pyIsSpace c = true
      · rw [words_space_cons c hc] at hw
        exact ih cs (by simp at hlen; omega) (strictSpaced_tail _ _ hss) w hw
      · have hc' : pyIsSpace c = false := by simpa using hc
        rw [words_cons_nonspace c hc'] at hw
        rcases List.mem_cons.mp hw with rfl | hw
        · have hform : c :: cs.takeWhile (fun d => !pyIsSpace d) =
              (c :: cs).takeWhile (fun d => !pyIsSpace d) := by
            rw [List.takeWhile_cons]
            simp [hc']
          rw [hform]
          exact punctOnlyLast_takeWhile _ hss
        · exact ih (cs.dropWhile (fun d => !pyIsSpace d))
            (by
              have hd := (@List.dropWhile_sublist Char cs (fun d => !pyIsSpace d)).length_le
              simp at hlen
              omega)
            (strictSpaced_dropWhile cs (strictSpaced_tail _ _ hss)) w hw

theorem words_punctOnlyLast (e : List Char) (hss : strictSpaced e = true) :
    ∀ w ∈ words e, punctOnlyLast w = true :=
  words_punctOnlyLast_aux e.length e le_rfl hss

-- ## Punctuation spacing survives the join

theorem punctSpaced_append_sp (w : List Char) (hw : punctOnlyLast w = true)
    (r : List Char) (hr : punctSpaced r = true)
    (hshape : r = [] ∨ ∃ r', r = ' ' :: r') : punctSpaced (w ++ r) = true := by
  induction w using punctOnlyLast.induct with
  | case1 c d rest ih =>
    have h := Bool.and_eq_true_iff.mp hw
    rw [List.cons_append, List.cons_append]
    show ((!isPunct c || d = ' ') && punctSpaced (d :: (rest ++ r))) = true
    rw [Bool.and_eq_true_iff]
    refine ⟨by simp [h.1], ?_⟩
    rw [← List.cons_append]
    exact ih h.2
  | case2 w hshort =>
    match w with
    | [] => simpa using hr
    | [c] =>
      rcases hshape with rfl | ⟨r', rfl⟩
      · rfl
      · rw [List.singleton_append]
        show ((!isPunct c || ' ' = ' ') && punctSpaced ( ' ' :: r')) = true
        rw [Bool.and_eq_true_iff]
        exact ⟨by simp, hr⟩
    | c :: d :: rest => exact (hshort c d rest rfl).elim

theorem punctSpaced_joinSp (ws : List (List Char))
    (h : ∀ w ∈ ws, punctOnlyLast w = true) : punctSpaced (joinSp ws) = true := by
  induction ws with
  | nil => rfl
  | cons w ws' ih =>
    cases ws' with
    | nil =>
      have h2 := punctSpaced_append_sp w (h w (List.mem_cons_self _ _)) [] rfl (Or.inl rfl)
      rwa [List.append_nil] at h2
    | cons x ws'' =>
      rw [joinSp.eq_3 _ _ (by simp)]
      refine punctSpaced_append_sp w (h w (List.mem_cons_self _ _)) _ ?_ (Or.inr ⟨_, rfl⟩)
      refine punctSpaced_cons_nonpunct ' ' (by decide) _ ?_
      exact ih fun v hv => h v (List.mem_cons_of_mem w hv)

-- ## Claims C4 and C9

/-- Claim C4 (counterexample): a period at the end of the input stays at the
end of the output, with no character after it: clean of a-period is a-period,
whose last character is the period itself. -/
theorem clean_trailing_period :
    clean (String.toList "a.") = String.toList "a." ∧
    (String.toList "a.").getLast? = some '.' :=
  ⟨by decide, by decide⟩

/-- Every period and comma in the output of clean is followed by a space
unless it ends the string (helper form, reused by the idempotence proof). -/
theorem punctSpaced_clean (s : List Char) : punctSpaced (clean s) = true := by
  show punctSpaced (joinSp (words (spacer _))) = true
  exact punctSpaced_joinSp _ (words_punctOnlyLast _ (strictSpaced_spacer _))

/-- Claim C4 (amended): in the output of clean, every period and every comma
is immediately followed by a space character unless it is the last character
of the output. -/
theorem clean_punctSpaced (s : List Char) : punctSpaced (clean s) = true :=
  punctSpaced_clean s

-- ## Whitespace normal form of the join

theorem noTwoWs_of_nonspace (w : List Char) (h : ∀ x ∈ w, pyIsSpace x = false) :
    noTwoWs w = true := by
  induction w with
  | nil => rfl
  | cons c w' ih =>
    cases w' with
    | nil => rfl
    | cons d r =>
      rw [noTwoWs, Bool.and_eq_true_iff]
      refine ⟨by simp [h c (List.mem_cons_self _ _)], ?_⟩
      exact ih fun x hx => h x (List.mem_cons_of_mem c hx)

theorem lastNoWs_of_nonspace (w : List Char) (h : ∀ x ∈ w, pyIsSpace x = false) :
    lastNoWs w = true := by
  induction w with
  | nil => rfl
  | cons c w' ih =>
    cases w' with
    | nil => simpa [lastNoWs] using h c (List.mem_cons_self _ _)
    | cons d r => exact ih fun x hx => h x (List.mem_cons_of_mem c hx)

theorem lastNoWs_append (xs ys : List Char) (hys : ys ≠ []) :
    lastNoWs (xs ++ ys) = lastNoWs ys := by
  induction xs with
  | nil => rfl
  | cons c xs' ih =>
    rw [List.cons_append]
    cases hx : xs' ++ ys with
    | nil => exact absurd (List.append_eq_nil.mp hx).2 hys
    | cons d r =>
      rw [show lastNoWs (c :: d :: r) = lastNoWs (d :: r) from rfl, ← hx, ih]

theorem noTwoWs_glue (w : List Char) (h : ∀ x ∈ w, pyIsSpace x = false)
    (t : List Char) (ht : noTwoWs t = true) : noTwoWs (w ++ t) = true := by
  induction w with
  | nil => exact ht
  | cons c w' ih =>
    rw [List.cons_append]
    cases hx : w' ++ t with
    | nil => rfl
    | cons d r =>
      rw [noTwoWs, Bool.and_eq_true_iff]
      refine ⟨by simp [h c (List.mem_cons_self _ _)], ?_⟩
      rw [← hx]
      exact ih fun x hx2 => h x (List.mem_cons_of_mem c hx2)

theorem joinSp_ne_nil (w : List Char) (ws : List (List Char)) (hw : w ≠ []) :
    joinSp (w :: ws) ≠ [] := by
  cases ws with
  | nil => exact hw
  | cons x ws' =>
    rw [joinSp.eq_3 _ _ (by simp)]
    match w, hw with
    | c :: w', _ => simp

theorem wsNormal_parts (s : List Char) :
    wsNormal s = true ↔
      spaceOnlyWs s = true ∧ noTwoWs s = true ∧ headNoWs s = true ∧ lastNoWs s = true := by
  rw [wsNormal]
  simp [Bool.and_eq_true_iff, and_assoc]

theorem wsNormal_joinSp (ws : List (List Char))
    (h1 : ∀ w ∈ ws, w ≠ [])
    (h2 : ∀ w ∈ ws, ∀ x ∈ w, pyIsSpace x = false) :
    wsNormal (joinSp ws) = true := by
  induction ws with
  | nil => rfl
  | cons w ws' ih =>
    have hw1 : w ≠ [] := h1 w (List.mem_cons_self _ _)
    have hw2 : ∀ x ∈ w, pyIsSpace x = false := h2 w (List.mem_cons_self _ _)
    cases ws' with
    | nil =>
      rw [wsNormal_parts]
      refine ⟨?_, noTwoWs_of_nonspace w hw2, ?_, lastNoWs_of_nonspace w hw2⟩
      · rw [spaceOnlyWs, List.all_eq_true]
        intro x hx
        simp [hw2 x hx]
      · match w, hw1 with
        | c :: w', _ =>
          rw [show joinSp [c :: w'] = c :: w' from rfl]
          simp [headNoWs, hw2 c (List.mem_cons_self _ _)]
    | cons x ws'' =>
      have hJ : wsNormal (joinSp (x :: ws'')) = true :=
        ih (fun v hv => h1 v (List.mem_cons_of_mem w hv))
          (fun v hv => h2 v (List.mem_cons_of_mem w hv))
      obtain ⟨hJ1, hJ2, hJ3, hJ4⟩ := (wsNormal_parts _).mp hJ
      have hJne : joinSp (x :: ws'') ≠ [] :=
        joinSp_ne_nil x ws'' (h1 x (List.mem_cons_of_mem w (List.mem_cons_self _ _)))
      rw [joinSp.eq_3 _ _ (by simp), wsNormal_parts]
      refine ⟨?_, ?_, ?_, ?_⟩
      · rw [spaceOnlyWs, List.all_eq_true]
        intro x2 hx2
        rcases List.mem_append.mp hx2 with hx2 | hx2
        · simp [hw2 x2 hx2]
        · rcases List.mem_cons.mp hx2 with rfl | hx2
          · simp
          · rw [spaceOnlyWs, List.all_eq_true] at hJ1
            exact hJ1 x2 hx2
      · refine noTwoWs_glue w hw2 _ ?_
        cases hJs : joinSp (x :: ws'') with
        | nil => rfl
        | cons e J' =>
          rw [noTwoWs, Bool.and_eq_true_iff]
          refine ⟨?_, by rw [← hJs]; exact hJ2⟩
          rw [hJs] at hJ3
          simp only [headNoWs] at hJ3
          simp [hJ3]
      · match w, hw1 with
        | c :: w', _ =>
          rw [List.cons_append]
          simp [headNoWs, hw2 c (List.mem_cons_self _ _)]
      · rw [lastNoWs_append _ _ (by simp)]
        cases hJs : joinSp (x :: ws'') with
        | nil => exact absurd hJs hJne
        | cons e J' =>
          rw [show lastNoWs ( ' ' :: e :: J') = lastNoWs (e :: J') from rfl, ← hJs]
          exact hJ4

/-- The output of clean is in whitespace normal form (helper form, reused by
the idempotence proof). -/
theorem wsNormal_clean (s : List Char) : wsNormal (clean s) = true := by
  show wsNormal (joinSp (words _)) = true
  exact wsNormal_joinSp _ (words_ne_nil _) (words_nonspace _)

/-- Claim C9: the output of clean is in whitespace normal form: it has no
leading or trailing whitespace, the only whitespace character it contains is
the plain space, and it never contains two adjacent whitespace characters. -/
theorem clean_wsNormal (s : List Char) : wsNormal (clean s) = true :=
  wsNormal_clean s

-- ## Characters of the output (for idempotence of the lowercasing)

theorem mem_subAndOr (x : Char) (s : List Char) (hx : x ∈ subAndOr s) :
    x ∈ s ∨ x = 'o' ∨ x = 'r' := by
  induction s using subAndOr.induct with
  | case1 c1 c2 c3 c4 c5 c6 rest hm ih =>
    rw [subAndOr, if_pos hm] at hx
    rcases List.mem_cons.mp hx with rfl | hx
    · exact Or.inr (Or.inl rfl)
    · rcases List.mem_cons.mp hx with rfl | hx
      · exact Or.inr (Or.inr rfl)
      · rcases ih hx with h | h
        · exact Or.inl (by simp [h])
        · exact Or.inr h
  | case2 c1 c2 c3 c4 c5 c6 rest hm ih =>
    rw [subAndOr, if_neg hm] at hx
    rcases List.mem_cons.mp hx with rfl | hx
    · exact Or.inl (List.mem_cons_self _ _)
    · rcases ih hx with h | h
      · exact Or.inl (List.mem_cons_of_mem _ h)
      · exact Or.inr h
  | case3 => exact absurd hx (by simp [subAndOr])
  | case4 c cs hshape ih =>
    have hstep : subAndOr (c :: cs) = c :: subAndOr cs := by
      rcases cs with _ | ⟨c2, _ | ⟨c3, _ | ⟨c4, _ | ⟨c5, _ | ⟨c6, rest⟩⟩⟩⟩⟩
      · rfl
      · rfl
      · rfl
      · rfl
      · rfl
      · exact (hshape c2 c3 c4 c5 c6 rest rfl).elim
    rw [hstep] at hx
    rcases List.mem_cons.mp hx with rfl | hx
    · exact Or.inl (List.mem_cons_self _ _)
    · rcases ih hx with h | h
      · exact Or.inl (List.mem_cons_of_mem _ h)
      · exact Or.inr h

theorem mem_slashOrAux (x : Char) (s : List Char) :
    ∀ p, x ∈ slashOrAux p s → x ∈ s ∨ x = ' ' ∨ x = 'o' ∨ x = 'r' := by
  induction s with
  | nil => intro p hx; exact absurd hx (by simp [slashOrAux])
  | cons c cs ih =>
    intro p hx
    rw [slashOrAux] at hx
    split at hx
    · simp only [List.mem_cons] at hx
      rcases hx with rfl | rfl | rfl | rfl | hx
      · exact Or.inr (Or.inl rfl)
      · exact Or.inr (Or.inr (Or.inl rfl))
      · exact Or.inr (Or.inr (Or.inr rfl))
      · exact Or.inr (Or.inl rfl)
      · rcases ih c hx with h | h
        · exact Or.inl (List.mem_cons_of_mem _ h)
        · exact Or.inr h
    · rcases List.mem_cons.mp hx with rfl | hx
      · exact Or.inl (List.mem_cons_self _ _)
      · rcases ih c hx with h | h
        · exact Or.inl (List.mem_cons_of_mem _ h)
        · exact Or.inr h

theorem mem_dotdot (x : Char) (s : List Char) (hx : x ∈ dotdot s) : x ∈ s := by
  induction s using dotdot.induct with
  | case1 a b rest hab ih =>
    rw [dotdot, if_pos hab] at hx
    rcases List.mem_cons.mp hx with rfl | hx
    · simp [hab.1]
    · simp [ih hx]
  | case2 a b rest hab ih =>
    rw [dotdot, if_neg hab] at hx
    rcases List.mem_cons.mp hx with rfl | hx
    · exact List.mem_cons_self _ _
    · exact List.mem_cons_of_mem _ (ih hx)
  | case3 => exact hx
  | case4 c => exact hx

theorem mem_spacer (x : Char) (s : List Char) (hx : x ∈ spacer s) : x ∈ s ∨ x = ' ' := by
  induction s with
  | nil => exact absurd hx (by simp [spacer])
  | cons c cs ih =>
    rw [spacer] at hx
    split at hx
    · simp only [List.mem_cons] at hx
      rcases hx with rfl | rfl | hx
      · exact Or.inl (List.mem_cons_self _ _)
      · exact Or.inr rfl
      · rcases ih hx with h | h
        · exact Or.inl (List.mem_cons_of_mem _ h)
        · exact Or.inr h
    · rcases List.mem_cons.mp hx with rfl | hx
      · exact Or.inl (List.mem_cons_self _ _)
      · rcases ih hx with h | h
        · exact Or.inl (List.mem_cons_of_mem _ h)
        · exact Or.inr h

theorem mem_joinSp (x : Char) (ws : List (List Char)) (hx : x ∈ joinSp ws) :
    (∃ w ∈ ws, x ∈ w) ∨ x = ' ' := by
  induction ws with
  | nil => exact absurd hx (by simp [joinSp])
  | cons w ws' ih =>
    cases ws' with
    | nil => exact Or.inl ⟨w, List.mem_cons_self _ _, hx⟩
    | cons v ws'' =>
      rw [joinSp.eq_3 _ _ (by simp)] at hx
      rcases List.mem_append.mp hx with hx | hx
      · exact Or.inl ⟨w, List.mem_cons_self _ _, hx⟩
      · rcases List.mem_cons.mp hx with rfl | hx
        · exact Or.inr rfl
        · rcases ih hx with ⟨u, hu, hxu⟩ | h
          · exact Or.inl ⟨u, List.mem_cons_of_mem _ hu, hxu⟩
          · exact Or.inr h

/-- Every character of the output of clean is fixed by the lowercasing. -/
theorem clean_lowerFixed (s : List Char) (x : Char) (hx : x ∈ clean s) :
    lowerChar x = x := by
  have hsp : lowerChar ' ' = ' ' := by decide
  have ho : lowerChar 'o' = 'o' := by decide
  have hr : lowerChar 'r' = 'r' := by decide
  have hx2 : x ∈ spacer (dotdot (slashOr (subAndOr (s.map lowerChar)))) ∨ x = ' ' := by
    rcases mem_joinSp x _ hx with ⟨w, hw, hxw⟩ | h
    · exact Or.inl (words_chars _ w hw x hxw)
    · exact Or.inr h
  rcases hx2 with hx2 | rfl
  · rcases mem_spacer x _ hx2 with hx3 | rfl
    · have hx4 := mem_dotdot x _ hx3
      rcases mem_slashOrAux x _ ' ' hx4 with hx5 | rfl | rfl | rfl
      · rcases mem_subAndOr x _ hx5 with hx6 | rfl | rfl
        · rcases List.mem_map.mp hx6 with ⟨a, -, rfl⟩
          exact lowerChar_idem a
        · exact ho
        · exact hr
      · exact hsp
      · exact ho
      · exact hr
    · exact hsp
  · exact hsp

-- ## No letter-flanked slash in the output

theorem noFlanked_cons₃ (a b c : Char) (r : List Char) :
    noFlanked (a :: b :: c :: r) = true ↔
      ((!(b = '/' && isAlphaC a && isAlphaC c)) = true ∧ noFlanked (b :: c :: r) = true) := by
  rw [noFlanked]
  exact Bool.and_eq_true_iff

theorem headAlpha_slashOrAux (s : List Char) (p : Char) (h : headAlpha s = false) :
    headAlpha (slashOrAux p s) = false := by
  cases s with
  | nil => rfl
  | cons c cs =>
    rw [slashOrAux]
    split
    · rfl
    · exact h

theorem noFlanked_slashOrAux (s : List Char) : ∀ p, noFlanked (p :: slashOrAux p s) = true := by
  induction s with
  | nil => intro p; rfl
  | cons c cs ih =>
    intro p
    rw [slashOrAux]
    split
    · rename_i hcon
      obtain ⟨rfl, hp, hh⟩ := hcon
      have hX : noFlanked ( ' ' :: slashOrAux '/' cs) = true := by
        rw [noFlanked_cons_congr ' ' '/' (by decide)]
        exact ih '/'
      refine (noFlanked_cons₃ _ _ _ _).mpr ⟨by simp, ?_⟩
      refine (noFlanked_cons₃ _ _ _ _).mpr ⟨by simp, ?_⟩
      refine (noFlanked_cons₃ _ _ _ _).mpr ⟨by simp, ?_⟩
      cases hXs : slashOrAux '/' cs with
      | nil => rfl
      | cons e X' =>
        refine (noFlanked_cons₃ _ _ _ _).mpr ⟨by simp, ?_⟩
        rw [← hXs]
        exact hX
    · rename_i hcon
      cases hXs : slashOrAux c cs with
      | nil => rfl
      | cons e X' =>
        refine (noFlanked_cons₃ _ _ _ _).mpr ⟨?_, by rw [← hXs]; exact ih c⟩
        by_cases hc : c = '/'
        · by_cases hp : isAlphaC p = true
          · have hh : headAlpha cs = false := by
              by_contra hh2
              exact hcon ⟨hc, hp, by simpa using hh2⟩
            have he : isAlphaC e = false := by
              have := headAlpha_slashOrAux cs c hh
              rw [hXs] at this
              simpa [headAlpha] using this
            simp [he]
          · have hp' : isAlphaC p = false := by simpa using hp
            simp [hp']
        · simp [hc]

theorem noFlanked_slashOr (s : List Char) : noFlanked (slashOr s) = true :=
  noFlanked_tail ' ' _ (noFlanked_slashOrAux s ' ')

theorem dotdot_headq (s : List Char) : (dotdot s).head? = s.head? := by
  cases s with
  | nil => rfl
  | cons c cs =>
    cases cs with
    | nil => rfl
    | cons d rest =>
      rw [dotdot]
      split
      · rename_i hcd
        rw [hcd.1]
        rfl
      · rfl

theorem noFlanked_dotdot_pre (s : List Char) : ∀ p, noFlanked (p :: s) = true →
    noFlanked (p :: dotdot s) = true := by
  induction s using dotdot.induct with
  | case1 a b rest hab ih =>
    intro p h
    obtain ⟨rfl, rfl⟩ := hab
    rw [dotdot, if_pos ⟨rfl, rfl⟩]
    have h' : noFlanked ( '.' :: rest) = true :=
      noFlanked_tail _ _ (noFlanked_tail _ _ h)
    cases hdr : dotdot rest with
    | nil => rfl
    | cons e r' =>
      refine (noFlanked_cons₃ _ _ _ _).mpr ⟨by simp, ?_⟩
      rw [← hdr]
      exact ih '.' h'
  | case2 a b rest hab ih =>
    intro p h
    rw [dotdot, if_neg hab]
    have hX : (dotdot (b :: rest)).head? = some b := by rw [dotdot_headq]; rfl
    cases hXs : dotdot (b :: rest) with
    | nil => rw [hXs] at hX; exact absurd hX (by simp)
    | cons e X' =>
      have he : e = b := by
        rw [hXs] at hX
        simpa using hX
      subst he
      refine (noFlanked_cons₃ _ _ _ _).mpr ⟨((noFlanked_cons₃ _ _ _ _).mp h).1, ?_⟩
      rw [← hXs]
      exact ih a (noFlanked_tail _ _ h)
  | case3 =>
    intro p h
    exact h
  | case4 c =>
    intro p h
    exact h

theorem spacer_headq (s : List Char) : (spacer s).head? = s.head? := by
  cases s with
  | nil => rfl
  | cons c cs =>
    rw [spacer]
    split
    · rfl
    · rfl

theorem noFlanked_spacer_pre (s : List Char) : ∀ p, noFlanked (p :: s) = true →
    noFlanked (p :: spacer s) = true := by
  induction s with
  | nil => intro p h; exact h
  | cons c cs ih =>
    intro p h
    rw [spacer]
    split
    · rename_i hp
      have hcne : (c = '/') = False := by
        rcases hp with rfl | rfl <;> simp
      have htl : noFlanked ( ' ' :: spacer cs) = true := by
        refine ih ' ' (noFlanked_cons_nonalpha ' ' (by decide) _ ?_)
        exact noFlanked_tail _ _ (noFlanked_tail _ _ h)
      refine (noFlanked_cons₃ _ _ _ _).mpr ⟨by simp [hcne], ?_⟩
      cases hsp : spacer cs with
      | nil => rfl
      | cons e r =>
        refine (noFlanked_cons₃ _ _ _ _).mpr ⟨by simp, ?_⟩
        rw [← hsp]
        exact htl
    · cases hsp : spacer cs with
      | nil => rfl
      | cons e r =>
        have hcs : cs.head? = some e := by
          rw [← spacer_headq, hsp]
          rfl
        have hX : noFlanked (c :: e :: r) = true := by
          rw [← hsp]
          exact ih c (noFlanked_tail _ _ h)
        cases cs with
        | nil => exact absurd hcs (by simp)
        | cons f cs'' =>
          have hf : f = e := by simpa using hcs
          subst hf
          exact (noFlanked_cons₃ _ _ _ _).mpr ⟨((noFlanked_cons₃ _ _ _ _).mp h).1, hX⟩

theorem noFlanked_append_left (ys : List Char) (xs : List Char)
    (h : noFlanked (xs ++ ys) = true) : noFlanked xs = true := by
  induction xs using noFlanked.induct with
  | case1 a b c r ih =>
    rw [List.cons_append, List.cons_append, List.cons_append] at h
    obtain ⟨h1, h2⟩ := (noFlanked_cons₃ _ _ _ _).mp h
    refine (noFlanked_cons₃ _ _ _ _).mpr ⟨h1, ?_⟩
    exact ih (by rw [List.cons_append, List.cons_append]; exact h2)
  | case2 t hshort =>
    match t with
    | [] => rfl
    | [a] => rfl
    | [a, b] => rfl
    | a :: b :: c :: r => exact (hshort a b c r rfl).elim

theorem noFlanked_takeWhile (q : Char → Bool) (s : List Char) (h : noFlanked s = true) :
    noFlanked (s.takeWhile q) = true := by
  refine noFlanked_append_left (s.dropWhile q) _ ?_
  rw [List.takeWhile_append_dropWhile]
  exact h

theorem noFlanked_dropWhile (q : Char → Bool) (s : List Char) (h : noFlanked s = true) :
    noFlanked (s.dropWhile q) = true := by
  induction s with
  | nil => rfl
  | cons c cs ih =>
    rw [List.dropWhile_cons]
    split
    · exact ih (noFlanked_tail _ _ h)
    · exact h

theorem words_noFlanked_aux : ∀ (n : Nat) (e : List Char), e.length ≤ n →
    noFlanked e = true → ∀ w ∈ words e, noFlanked w = true := by
  intro n
  induction n with
  | zero =>
    intro e hlen _ w hw
    have he : e = [] := List.eq_nil_of_length_eq_zero (by omega)
    subst he
    simp [words] at hw
  | succ k ih =>
    intro e hlen hnf w hw
    match e with
    | [] => simp [words] at hw
    | c :: cs =>
      by_cases hc : pyIsSpace c = true
      · rw [words_space_cons c hc] at hw
        exact ih cs (by simp at hlen; omega) (noFlanked_tail _ _ hnf) w hw
      · have hc' : pyIsSpace c = false := by simpa using hc
        rw [words_cons_nonspace c hc'] at hw
        rcases List.mem_cons.mp hw with rfl | hw
        · have hform : c :: cs.takeWhile (fun d => !pyIsSpace d) =
              (c :: cs).takeWhile (fun d => !pyIsSpace d) := by
            rw [List.takeWhile_cons]
            simp [hc']
          rw [hform]
          exact noFlanked_takeWhile _ _ hnf
        · exact ih (cs.dropWhile (fun d => !pyIsSpace d))
            (by
              have hd := (@List.dropWhile_sublist Char cs (fun d => !pyIsSpace d)).length_le
              simp at hlen
              omega)
            (noFlanked_dropWhile _ _ (noFlanked_tail _ _ hnf)) w hw

theorem noFlanked_append_sep (xs : List Char) (hxs : noFlanked xs = true)
    (ys : List Char) (hys : noFlanked ( ' ' :: ys) = true) :
    noFlanked (xs ++ ' ' :: ys) = true := by
  induction xs using noFlanked.induct with
  | case1 a b c r ih =>
    obtain ⟨h1, h2⟩ := (noFlanked_cons₃ _ _ _ _).mp hxs
    rw [List.cons_append, List.cons_append, List.cons_append]
    refine (noFlanked_cons₃ _ _ _ _).mpr ⟨h1, ?_⟩
    rw [← List.cons_append, ← List.cons_append]
    exact ih h2
  | case2 t hshort =>
    match t with
    | [] => exact hys
    | [a] =>
      cases ys with
      | nil => rfl
      | cons e ys' => exact (noFlanked_cons₃ _ _ _ _).mpr ⟨by simp, hys⟩
    | [a, b] =>
      refine (noFlanked_cons₃ _ _ _ _).mpr
        ⟨by simp [show isAlphaC ' ' = false from by decide], ?_⟩
      cases ys with
      | nil => rfl
      | cons e ys' => exact (noFlanked_cons₃ _ _ _ _).mpr ⟨by simp, hys⟩
    | a :: b :: c :: r => exact (hshort a b c r rfl).elim

theorem noFlanked_joinSp (ws : List (List Char))
    (h : ∀ w ∈ ws, noFlanked w = true) : noFlanked (joinSp ws) = true := by
  induction ws with
  | nil => rfl
  | cons w ws' ih =>
    cases ws' with
    | nil => exact h w (List.mem_cons_self _ _)
    | cons x ws'' =>
      rw [joinSp.eq_3 _ _ (by simp)]
      refine noFlanked_append_sep w (h w (List.mem_cons_self _ _)) _ ?_
      refine noFlanked_cons_nonalpha ' ' (by decide) _ ?_
      exact ih fun v hv => h v (List.mem_cons_of_mem w hv)

/-- The output of clean never has a slash with alphabetic characters on both
sides. -/
theorem clean_noFlanked (s : List Char) : noFlanked (clean s) = true := by
  show noFlanked (joinSp (words (spacer (dotdot (slashOr (subAndOr (s.map lowerChar))))))) = true
  have h2 : noFlanked (slashOr (subAndOr (s.map lowerChar))) = true := noFlanked_slashOr _
  have h3 : noFlanked (dotdot (slashOr (subAndOr (s.map lowerChar)))) = true := by
    refine noFlanked_tail ' ' _ (noFlanked_dotdot_pre _ ' ' ?_)
    exact noFlanked_cons_nonalpha ' ' (by decide) _ h2
  have h4 : noFlanked (spacer (dotdot (slashOr (subAndOr (s.map lowerChar))))) = true := by
    refine noFlanked_tail ' ' _ (noFlanked_spacer_pre _ ' ' ?_)
    exact noFlanked_cons_nonalpha ' ' (by decide) _ h3
  refine noFlanked_joinSp _ ?_
  intro w hw
  exact words_noFlanked_aux _ _ le_rfl h4 w hw

-- ## The rewriting stages fix strings that satisfy the output invariants

theorem subAndOr_of_noFlanked (t : List Char) (h : noFlanked t = true) : subAndOr t = t := by
  induction t using subAndOr.induct with
  | case1 c1 c2 c3 c4 c5 c6 rest hm ih =>
    obtain ⟨rfl, rfl, rfl, rfl, rfl, rfl⟩ := hm
    have h2 := ((noFlanked_cons₃ _ _ _ _).mp h).2
    have h3 := ((noFlanked_cons₃ _ _ _ _).mp h2).2
    have h4 := ((noFlanked_cons₃ _ _ _ _).mp h3).1
    exact absurd h4 (by decide)
  | case2 c1 c2 c3 c4 c5 c6 rest hm ih =>
    rw [subAndOr, if_neg hm]
    exact congrArg (c1 :: ·) (ih (noFlanked_tail _ _ h))
  | case3 => rfl
  | case4 c cs hshape ih =>
    have hstep : subAndOr (c :: cs) = c :: subAndOr cs := by
      rcases cs with _ | ⟨c2, _ | ⟨c3, _ | ⟨c4, _ | ⟨c5, _ | ⟨c6, rest⟩⟩⟩⟩⟩
      · rfl
      · rfl
      · rfl
      · rfl
      · rfl
      · exact (hshape c2 c3 c4 c5 c6 rest rfl).elim
    rw [hstep]
    exact congrArg (c :: ·) (ih (noFlanked_tail _ _ h))

theorem slashOrAux_of_noFlanked (t : List Char) :
    ∀ p, noFlanked (p :: t) = true → slashOrAux p t = t := by
  induction t with
  | nil => intro p _; rfl
  | cons c cs ih =>
    intro p h
    rw [slashOrAux]
    split
    · rename_i hcon
      obtain ⟨rfl, hp, hh⟩ := hcon
      cases cs with
      | nil => exact absurd hh (by simp [headAlpha])
      | cons e cs' =>
        have he : isAlphaC e = true := by simpa [headAlpha] using hh
        have hcond := ((noFlanked_cons₃ _ _ _ _).mp h).1
        rw [hp, he] at hcond
        exact absurd hcond (by decide)
    · exact congrArg (c :: ·) (ih c (noFlanked_tail _ _ h))

theorem dotdot_of_punctSpaced (t : List Char) (h : punctSpaced t = true) : dotdot t = t := by
  induction t using dotdot.induct with
  | case1 a b rest hab ih =>
    obtain ⟨rfl, rfl⟩ := hab
    rw [punctSpaced] at h
    have h1 := (Bool.and_eq_true_iff.mp h).1
    exact absurd h1 (by decide)
  | case2 a b rest hab ih =>
    rw [dotdot, if_neg hab]
    exact congrArg (a :: ·) (ih (punctSpaced_tail _ _ h))
  | case3 => rfl
  | case4 c => rfl

-- ## Splitting absorbs the spacer on an already punctuation-spaced string

theorem spacer_words_aux : ∀ (n : Nat) (t : List Char), t.length ≤ n →
    punctSpaced t = true →
    (spacer t).takeWhile (fun d => !pyIsSpace d) = t.takeWhile (fun d => !pyIsSpace d) ∧
    words ((spacer t).dropWhile (fun d => !pyIsSpace d)) =
      words (t.dropWhile (fun d => !pyIsSpace d)) ∧
    words (spacer t) = words t := by
  intro n
  induction n with
  | zero =>
    intro t hlen _
    have ht : t = [] := List.eq_nil_of_length_eq_zero (by omega)
    subst ht
    exact ⟨rfl, rfl, rfl⟩
  | succ k ih =>
    intro t hlen hps
    match t with
    | [] => exact ⟨rfl, rfl, rfl⟩
    | c :: cs =>
      by_cases hp : c = '.' ∨ c = ','
      · have hcp : pyIsSpace c = false := by rcases hp with rfl | rfl <;> decide
        have hpunct : isPunct c = true := by rcases hp with rfl | rfl <;> decide
        rw [spacer, if_pos hp]
        cases cs with
        | nil =>
          have hsp : pyIsSpace ' ' = true := by decide
          refine ⟨?_, ?_, ?_⟩
          · simp [List.takeWhile_cons, hcp, hsp]
          · simp [List.dropWhile_cons, hcp, words, spacer, hsp]
          · rw [words_cons_nonspace c hcp, words_cons_nonspace c hcp]
            simp [List.takeWhile_cons, List.dropWhile_cons, words, spacer, hsp]
        | cons d cs' =>
          rw [punctSpaced] at hps
          obtain ⟨h1, h2⟩ := Bool.and_eq_true_iff.mp hps
          have hd : d = ' ' := by
            rcases Bool.or_eq_true_iff.mp h1 with h | h
            · rw [hpunct] at h
              exact absurd h (by decide)
            · simpa using h
          subst hd
          have hps' : punctSpaced cs' = true := punctSpaced_tail _ _ h2
          obtain ⟨ih1, ih2, ih3⟩ := ih cs' (by simp at hlen; omega) hps'
          rw [show spacer ( ' ' :: cs') = ' ' :: spacer cs' from by rw [spacer, if_neg (by simp)]]
          have hsp : pyIsSpace ' ' = true := by decide
          refine ⟨?_, ?_, ?_⟩
          · simp [List.takeWhile_cons, hcp, hsp]
          · simp only [List.dropWhile_cons, hcp, Bool.not_false, if_true,
              show (!pyIsSpace ' ') = false from by decide, Bool.false_eq_true, if_false]
            rw [words_space_cons ' ' (by decide), words_space_cons ' ' (by decide),
              words_space_cons ' ' (by decide), ih3]
          · rw [words_cons_nonspace c hcp, words_cons_nonspace c hcp]
            simp only [List.takeWhile_cons, List.dropWhile_cons,
              show (!pyIsSpace ' ') = false from by decide, Bool.false_eq_true, if_false,
              List.takeWhile_nil]
            rw [words_space_cons ' ' (by decide), words_space_cons ' ' (by decide),
              words_space_cons ' ' (by decide), ih3]
      · rw [spacer, if_neg hp]
        have hps' : punctSpaced cs = true := punctSpaced_tail _ _ hps
        obtain ⟨ih1, ih2, ih3⟩ := ih cs (by simp at hlen; omega) hps'
        by_cases hc : pyIsSpace c = true
        · refine ⟨?_, ?_, ?_⟩
          · simp [List.takeWhile_cons, hc]
          · simp only [List.dropWhile_cons, hc, Bool.not_true, Bool.false_eq_true, if_false]
            rw [words_space_cons c hc, words_space_cons c hc, ih3]
          · rw [words_space_cons c hc, words_space_cons c hc, ih3]
        · have hc' : pyIsSpace c = false := by simpa using hc
          refine ⟨?_, ?_, ?_⟩
          · simp only [List.takeWhile_cons, hc', Bool.not_false, if_true]
            rw [ih1]
          · simp only [List.dropWhile_cons, hc', Bool.not_false, if_true]
            exact ih2
          · rw [words_cons_nonspace c hc', words_cons_nonspace c hc', ih1, ih2]

theorem words_spacer_eq (t : List Char) (h : punctSpaced t = true) :
    words (spacer t) = words t :=
  (spacer_words_aux t.length t le_rfl h).2.2

-- ## Re-joining the words of a whitespace-normal string reconstructs it

theorem dropWhile_head_not (q : Char → Bool) (s : List Char) (d : Char) (r : List Char)
    (h : s.dropWhile q = d :: r) : q d = false := by
  induction s with
  | nil => simp at h
  | cons c cs ih =>
    rw [List.dropWhile_cons] at h
    by_cases hc : q c = true
    · rw [if_pos hc] at h
      exact ih h
    · rw [if_neg hc] at h
      obtain ⟨rfl, -⟩ := List.cons.inj h
      simpa using hc

theorem noTwoWs_suffix (xs ys : List Char) (h : noTwoWs (xs ++ ys) = true) :
    noTwoWs ys = true := by
  induction xs with
  | nil => exact h
  | cons c xs' ih =>
    rw [List.cons_append] at h
    exact ih (noTwoWs_tail _ _ h)

theorem joinSp_words_aux : ∀ (n : Nat) (t : List Char), t.length ≤ n →
    wsNormal t = true → joinSp (words t) = t := by
  intro n
  induction n with
  | zero =>
    intro t hlen _
    have ht : t = [] := List.eq_nil_of_length_eq_zero (by omega)
    subst ht
    rfl
  | succ k ih =>
    intro t hlen hws
    match t with
    | [] => rfl
    | c :: cs =>
      obtain ⟨hA, hB, hC, hD⟩ := (wsNormal_parts _).mp hws
      have hc' : pyIsSpace c = false := by simpa [headNoWs] using hC
      rw [words_cons_nonspace c hc']
      have hsplit := List.takeWhile_append_dropWhile (fun d => !pyIsSpace d) cs
      cases hB' : cs.dropWhile (fun d => !pyIsSpace d) with
      | nil =>
        have hA' : cs.takeWhile (fun d => !pyIsSpace d) = cs := by
          rw [hB', List.append_nil] at hsplit
          exact hsplit
        rw [hA']
        rfl
      | cons d B' =>
        have hd : pyIsSpace d = true := by
          have := dropWhile_head_not _ cs d B' hB'
          simpa using this
        have hdmem : d ∈ c :: cs := by
          refine List.mem_cons_of_mem c
            ((@List.dropWhile_sublist Char cs (fun d => !pyIsSpace d)).subset ?_)
          rw [hB']
          exact List.mem_cons_self _ _
        have hd' : d = ' ' := by
          rw [spaceOnlyWs, List.all_eq_true] at hA
          have := hA d hdmem
          rcases Bool.or_eq_true_iff.mp this with h | h
          · rw [hd] at h
            exact absurd h (by decide)
          · simpa using h
        subst hd'
        have hcs : cs = cs.takeWhile (fun d => !pyIsSpace d) ++ ' ' :: B' := by
          rw [← hB', hsplit]
        cases B' with
        | nil =>
          exfalso
          have ht : c :: cs = (c :: cs.takeWhile (fun d => !pyIsSpace d)) ++ [ ' '] :=
            congrArg (fun l => c :: l) hcs
          rw [ht, lastNoWs_append _ _ (by simp)] at hD
          exact absurd hD (by decide)
        | cons e B'' =>
          have hsuffix : noTwoWs ( ' ' :: e :: B'') = true := by
            refine noTwoWs_suffix (c :: cs.takeWhile (fun d => !pyIsSpace d)) _ ?_
            have heq : (c :: cs.takeWhile (fun d => !pyIsSpace d)) ++ ' ' :: e :: B'' =
                c :: cs := (congrArg (fun l => c :: l) hcs).symm
            rw [heq]
            exact hB
          have he : pyIsSpace e = false := by
            have h1 := (Bool.and_eq_true_iff.mp hsuffix).1
            have h2 : pyIsSpace ' ' = false ∨ pyIsSpace e = false := by simpa using h1
            rcases h2 with h2 | h2
            · exact absurd h2 (by decide)
            · exact h2
          have hwsrest : wsNormal (e :: B'') = true := by
            rw [wsNormal_parts]
            refine ⟨?_, noTwoWs_tail _ _ hsuffix, by simpa [headNoWs] using he, ?_⟩
            · rw [spaceOnlyWs, List.all_eq_true]
              intro x hx
              rw [spaceOnlyWs, List.all_eq_true] at hA
              refine hA x ?_
              refine List.mem_cons_of_mem c ?_
              rw [hcs]
              exact List.mem_append.mpr (Or.inr (List.mem_cons_of_mem _ hx))
            · have ht : c :: cs = (c :: cs.takeWhile (fun d => !pyIsSpace d)) ++
                  ' ' :: e :: B'' := congrArg (fun l => c :: l) hcs
              rw [ht, lastNoWs_append _ _ (by simp)] at hD
              exact hD
          have hlen2 : (e :: B'').length ≤ k := by
            have h1 : cs.length = (cs.takeWhile (fun d => !pyIsSpace d)).length +
                ( ' ' :: e :: B'').length := by
              conv_lhs => rw [hcs]
              exact List.length_append _ _
            simp only [List.length_cons] at h1 hlen ⊢
            omega
          have hrec := ih (e :: B'') hlen2 hwsrest
          rw [words_space_cons ' ' (by decide)]
          have hwshape : ∃ w ws, words (e :: B'') = w :: ws := by
            rw [words_cons_nonspace e he]
            exact ⟨_, _, rfl⟩
          obtain ⟨w, ws, hwshape⟩ := hwshape
          rw [hwshape, joinSp.eq_3 _ _ (by simp), ← hwshape, hrec]
          exact (congrArg (fun l => c :: l) hcs).symm

-- ## Claim C10

/-- Claim C10: clean is idempotent: cleaning an already cleaned string changes
nothing, because the output of clean contains no character changed by
lowercasing, no and-slash-or occurrence, no slash flanked by letters on both
sides, no two adjacent periods, and every period and comma in it is already
followed by a space or ends the string, while its whitespace is already
normalized. -/
theorem clean_idem (s : List Char) : clean (clean s) = clean s := by
  have h1 : (clean s).map lowerChar = clean s := by
    calc (clean s).map lowerChar = (clean s).map id :=
      List.map_congr_left (clean_lowerFixed s)
    _ = clean s := List.map_id _
  have h2 : subAndOr (clean s) = clean s :=
    subAndOr_of_noFlanked _ (clean_noFlanked s)
  have h3 : slashOrAux ' ' (clean s) = clean s := by
    refine slashOrAux_of_noFlanked _ ' ' ?_
    exact noFlanked_cons_nonalpha ' ' (by decide) _ (clean_noFlanked s)
  have h4 : dotdot (clean s) = clean s :=
    dotdot_of_punctSpaced _ (punctSpaced_clean s)
  have h5 : words (spacer (clean s)) = words (clean s) :=
    words_spacer_eq _ (punctSpaced_clean s)
  have h6 : joinSp (words (clean s)) = clean s :=
    joinSp_words_aux (clean s).length _ le_rfl (wsNormal_clean s)
  show joinSp (words (spacer (dotdot (slashOr (subAndOr ((clean s).map lowerChar)))))) = clean s
  rw [h1, h2, slashOr, h3, h4, h5, h6]
